import Mathlib

/-!
Verification of the cheve repository's response parser, history pagination,
CSV export and history-loading state transition, via a shallow embedding of
the TypeScript source into Lean.

Conventions of the embedding:
* JS strings are Lean `String`s; internal processing works on `List Char`
  (`String.data`), matching JS per-character regex semantics.
* JS whitespace (`\s`, `trim`) is modelled by the ASCII whitespace class
  `isWsChar`; all inputs exercised by the claims are ASCII.
* Fallible external calls (`fetch`, Firestore `getDocs`) are modelled by
  explicit arguments (`Except` outcomes, a store list).
-/

namespace Cheve

/-- ASCII part of the JS `\s` class, also used by `String.prototype.trim`. -/
def isWsChar (c : Char) : Bool :=
  c = ' ' || c = '\t' || c = '\n' || c = '\r' || c = '\x0b' || c = '\x0c'

/-- The markdown-artifact class removed first by gemini.ts line 144:
the star, underscore, backtick and hash characters. -/
def isMdChar (c : Char) : Bool :=
  c = '*' || c = '_' || c = '`' || c = '#'

/-- The dash class of the separator regexes in gemini.ts (lines 161 and 180):
hyphen-minus, en dash, em dash. -/
def isDashChar (c : Char) : Bool :=
  c = '-' || c = '–' || c = '—'

/-- JS `String.prototype.split` with a single-character separator class:
splits at every character satisfying `p`; adjacent separators and boundary
separators yield empty pieces, exactly as in JS. -/
def splitOnChar (p : Char → Bool) : List Char → List (List Char)
  | [] => [[]]
  | c :: rest =>
    if p c then [] :: splitOnChar p rest
    else
      match splitOnChar p rest with
      | [] => [[c]]
      | piece :: more => (c :: piece) :: more

/-- JS `String.prototype.trim` on the character list (ASCII whitespace). -/
def jsTrimList (cs : List Char) : List Char :=
  ((cs.dropWhile isWsChar).reverse.dropWhile isWsChar).reverse

/-- JS `String.prototype.trim`. -/
def jsTrim (s : String) : String :=
  ⟨jsTrimList s.data⟩

/-- `joinLists sep [x₁, …, xₙ] = x₁ ++ sep ++ … ++ sep ++ xₙ`, the JS
`Array.prototype.join`. -/
def joinLists (sep : List Char) : List (List Char) → List Char
  | [] => []
  | [x] => x
  | x :: y :: rest => x ++ sep ++ joinLists sep (y :: rest)

/-- Case-insensitive literal head match (JS `/i` flag on ASCII letters):
returns the remaining characters after the pattern, or `none`. -/
def matchHeadCI : List Char → List Char → Option (List Char)
  | [], cs => some cs
  | _ :: _, [] => none
  | p :: ps, c :: cs => if c.toLower = p.toLower then matchHeadCI ps cs else none

/-- The context-label regexes of gemini.ts lines 153-154:
`/^CONTEXT\s*:/i` accepts exactly when this returns `some`, and
`contextLine.replace(/^CONTEXT\s*:\s*/i, '')` returns the `some` payload
(the text after the colon with the following whitespace dropped). -/
def stripContextLabel (cs : List Char) : Option (List Char) :=
  match matchHeadCI ['C', 'O', 'N', 'T', 'E', 'X', 'T'] cs with
  | some rest =>
    match rest.dropWhile isWsChar with
    | ':' :: rest2 => some (rest2.dropWhile isWsChar)
    | _ => none
  | none => none

/-- Test of the line-classification regex `/^CONTEXT\s*:/i`. -/
def isContextLine (cs : List Char) : Bool :=
  (stripContextLabel cs).isSome

/-- The word-label regex `/^WORD\d\s*:/i` (gemini.ts lines 165 and 174):
`WORD`, one digit, optional whitespace, colon.  Returns the rest after the
colon. -/
def stripWordLabel (cs : List Char) : Option (List Char) :=
  match matchHeadCI ['W', 'O', 'R', 'D'] cs with
  | some (d :: rest) =>
    if d.isDigit then
      match rest.dropWhile isWsChar with
      | ':' :: rest2 => some rest2
      | _ => none
    else none
  | _ => none

/-- Test of the labelled-word-line regex `/^WORD\d\s*:/i`. -/
def isWordLine (cs : List Char) : Bool :=
  (stripWordLabel cs).isSome

/-- The `[\d]+\.` alternative of the label-stripping regex in
`parseWordLine` (gemini.ts line 165): one or more digits then a dot. -/
def stripNumberDot (cs : List Char) : Option (List Char) :=
  match cs.dropWhile Char.isDigit with
  | '.' :: rest => if (cs.takeWhile Char.isDigit).isEmpty then none else some rest
  | _ => none

/-- The `[-*•]` bullet alternative of the label-stripping regex. -/
def stripBulletMark : List Char → Option (List Char)
  | c :: rest => if c = '-' || c = '*' || c = '•' then some rest else none
  | [] => none

/-- `line.replace(/^(WORD\d\s*:|[\d]+\.|[-*•])\s*/i, '')` (gemini.ts
line 165): the alternatives are tried left to right, then the trailing
`\s*` is dropped; with no match the line is unchanged. -/
def stripLabelMark (cs : List Char) : List Char :=
  match stripWordLabel cs with
  | some rest => rest.dropWhile isWsChar
  | none =>
    match stripNumberDot cs with
    | some rest => rest.dropWhile isWsChar
    | none =>
      match stripBulletMark cs with
      | some rest => rest.dropWhile isWsChar
      | none => cs

/-- The tone regex `/\(([^)]+)\)\s*$/` of gemini.ts line 155 and the
matching `replace` of line 157.  A match at position `i` needs `'('` at
`i`, at least one following non-`')'` character, the next `')'`, and only
whitespace afterwards; the leftmost such `i` wins.  Returns
`some (text before the match, captured group)`, or `none` when the regex
does not match.  Because `[^)]+` cannot cross a `')'`, the `')'` consumed
is always the first one after the `'('`, so the leftmost-match search below
is exactly the JS behaviour. -/
def toneSplit : List Char → Option (List Char × List Char)
  | [] => none
  | c :: rest =>
    if c = '(' then
      match rest.dropWhile (fun x => x != ')') with
      | ')' :: tail =>
        if rest.takeWhile (fun x => x != ')') ≠ [] ∧ tail.all isWsChar then
          some ([], rest.takeWhile (fun x => x != ')'))
        else (toneSplit rest).map (fun p => (c :: p.1, p.2))
      | _ => (toneSplit rest).map (fun p => (c :: p.1, p.2))
    else (toneSplit rest).map (fun p => (c :: p.1, p.2))

/-- `body.split(/\s*[—–\-]\s*/).map(s => s.trim()).filter(Boolean)`
(gemini.ts lines 161 and 166).  Every match of the separator regex
contains exactly one dash character plus surrounding whitespace, and the
pieces are trimmed and empties dropped afterwards, so the composite equals
splitting at each dash character, trimming each piece, and dropping
empties. -/
def splitSegments (cs : List Char) : List (List Char) :=
  ((splitOnChar isDashChar cs).map jsTrimList).filter (fun s => decide (s ≠ []))

/-- The `WordAnnotation` record of gemini.ts lines 7-11. -/
structure WordEntry where
  word : String
  meaning : String
  note : String
deriving DecidableEq

/-- The `TranslationExplanation` record of gemini.ts lines 13-17. -/
structure TranslationExplanation where
  context : String
  tone : String
  annotations : List WordEntry
deriving DecidableEq

/-- `parseWordLine` of gemini.ts lines 163-171: strip the label mark, trim,
split into segments; fewer than two segments is rejected; the first two
segments are word and meaning, the remaining segments rejoined with
`" - "` are the note, defaulting to the meaning when empty. -/
def parseWordLine (line : List Char) : Option WordEntry :=
  let body := jsTrimList (stripLabelMark line)
  match splitSegments body with
  | word :: meaning :: noteParts =>
    let note := jsTrimList (joinLists [' ', '-', ' '] noteParts)
    some { word := ⟨word⟩, meaning := ⟨meaning⟩,
           note := if note = [] then ⟨meaning⟩ else ⟨note⟩ }
  | _ => none

/-- gemini.ts line 156: the captured tone group trimmed, or the literal
default `"colloquial"` when the tone regex does not match. -/
def toneOf (contextBody : List Char) : List Char :=
  match toneSplit contextBody with
  | some p => jsTrimList p.2
  | none => "colloquial".data

/-- gemini.ts line 157: the context body with the trailing parenthesized
group removed (when present), trimmed. -/
def contextOf (contextBody : List Char) : List Char :=
  jsTrimList (match toneSplit contextBody with | some p => p.1 | none => contextBody)

/-- The annotation filter of gemini.ts line 187: keep a parse result only
when it is non-null and its word and meaning are truthy (non-empty). -/
def keepValid (o : Option WordEntry) : Option WordEntry :=
  match o with
  | some a => if a.word ≠ "" ∧ a.meaning ≠ "" then some a else none
  | none => none

/-- gemini.ts lines 143-147: strip markdown characters, split into lines,
trim each, drop empties. -/
def cleanLines (raw : String) : List (List Char) :=
  ((splitOnChar (fun c => c == '\n') (raw.data.filter (fun c => !isMdChar c))).map
      jsTrimList).filter (fun s => decide (s ≠ []))

/-- The response-parsing stage of `explainTranslation` (gemini.ts lines
142-189), applied to the raw model reply.  A total function: the source
routine performs no throwing operation on this path. -/
def parseExplanation (raw : String) : TranslationExplanation :=
  let cleaned := cleanLines raw
  let contextLine := (cleaned.find? isContextLine).getD (cleaned.headD [])
  let contextBody := jsTrimList ((stripContextLabel contextLine).getD contextLine)
  let tone := toneOf contextBody
  let context := contextOf contextBody
  let labeled := cleaned.filter isWordLine
  let wordLines :=
    if labeled.length < 2 then
      (labeled ++
        cleaned.filter (fun l => !isContextLine l && decide (2 ≤ l.countP isDashChar))).take 2
    else labeled
  let annotations := (wordLines.map parseWordLine).filterMap keepValid
  { context := ⟨context⟩, tone := ⟨tone⟩, annotations := annotations }

/-! History store client (src/lib/services/firestore.ts).  The Firestore
query engine itself is an external collaborator (spec section 6): its
where/orderBy/startAfter/limit semantics are modelled by `queryDocs`
below, with store-assigned document ids modelled as naturals and
timestamps as naturals.  `getTranslations` embeds lines 58-103. -/

/-- A document of the `translations` collection (spec section 6: fields
userId, inputText, outputText, mode, createdAt, plus the store-assigned
id). -/
structure StoredDoc where
  id : Nat
  userId : String
  inputText : String
  outputText : String
  mode : String
  createdAt : Nat
deriving DecidableEq

/-- The `Translation` record of firestore.ts lines 17-24. -/
structure Translation where
  id : Nat
  userId : String
  inputText : String
  outputText : String
  mode : String
  createdAt : Nat
deriving DecidableEq

/-- The mapping of firestore.ts lines 86-96: one result document to a
`Translation` record. -/
def toTranslation (d : StoredDoc) : Translation :=
  { id := d.id, userId := d.userId, inputText := d.inputText,
    outputText := d.outputText, mode := d.mode, createdAt := d.createdAt }

/-- Firestore's result order for `orderBy('createdAt', 'desc')`: newer
documents first, ties broken by the document id ascending (Firestore's
implicit document-name tiebreak).  `docLe a b` means `a` comes at or
before `b` in that order. -/
def docLe (a b : StoredDoc) : Prop :=
  b.createdAt < a.createdAt ∨ (b.createdAt = a.createdAt ∧ a.id ≤ b.id)

instance : DecidableRel docLe := fun a b =>
  inferInstanceAs (Decidable (b.createdAt < a.createdAt ∨
    (b.createdAt = a.createdAt ∧ a.id ≤ b.id)))

instance : IsTotal StoredDoc docLe where
  total a b := by
    rcases Nat.lt_trichotomy a.createdAt b.createdAt with h | h | h
    · exact Or.inr (Or.inl h)
    · rcases Nat.le_total a.id b.id with h2 | h2
      · exact Or.inl (Or.inr ⟨h.symm, h2⟩)
      · exact Or.inr (Or.inr ⟨h, h2⟩)
    · exact Or.inl (Or.inl h)

instance : IsTrans StoredDoc docLe where
  trans _ _ _ hab hbc := by
    rcases hab with h1 | ⟨e1, i1⟩
    · rcases hbc with h2 | ⟨e2, i2⟩
      · exact Or.inl (h2.trans h1)
      · exact Or.inl (e2 ▸ h1)
    · rcases hbc with h2 | ⟨e2, i2⟩
      · exact Or.inl (e1 ▸ h2)
      · exact Or.inr ⟨e2.trans e1, i1.trans i2⟩

/-- firestore.ts line 32. -/
def PAGE_SIZE : Nat := 10

/-- The documents matching the query before the limit: filtered by user id
and ordered (`where('userId','==',uid)`, `orderBy('createdAt','desc')`),
positioned strictly after the cursor document when one is supplied
(`startAfter(cursor)`); models the external store's documented
semantics. -/
def afterCursorDocs (store : List StoredDoc) (uid : String) (cursor : Option StoredDoc) :
    List StoredDoc :=
  let ordered := List.insertionSort docLe (store.filter (fun d => d.userId == uid))
  match cursor with
  | none => ordered
  | some c => ordered.dropWhile (fun d => decide (docLe d c))

/-- The query of firestore.ts lines 64-81: the matching documents with
`limit(PAGE_SIZE + 1)` applied. -/
def queryDocs (store : List StoredDoc) (uid : String) (cursor : Option StoredDoc) :
    List StoredDoc :=
  (afterCursorDocs store uid cursor).take (PAGE_SIZE + 1)

/-- The `PaginatedResult` record of firestore.ts lines 26-30. -/
structure PaginatedResult where
  translations : List Translation
  lastDoc : Option StoredDoc
  hasMore : Bool
deriving DecidableEq

/-- `getTranslations` of firestore.ts lines 58-103: fetch one document
beyond the page size, report `hasMore` when the extra one is present,
discard it from the returned slice, and return the last returned document
as the continuation cursor. -/
def getTranslations (store : List StoredDoc) (uid : String) (cursor : Option StoredDoc) :
    PaginatedResult :=
  let docs := queryDocs store uid cursor
  let hasMore := PAGE_SIZE < docs.length
  let pageDocs := if PAGE_SIZE < docs.length then docs.take PAGE_SIZE else docs
  { translations := pageDocs.map toTranslation,
    lastDoc := pageDocs.getLast?,
    hasMore := hasMore }

/-- A twelve-record store for a single user, used to exercise the
pagination contract on concrete data. -/
def demoStore : List StoredDoc :=
  (List.range 12).map (fun i => ⟨i, "u", "in", "out", "en-paisa", i⟩)

/-! CSV export (src/routes/+page.svelte, `exportCSV`, lines 179-195).
`Date.prototype.toISOString` is a JS runtime primitive; it is modelled as
an explicit formatting argument `dateFmt`. -/

/-- `.replace(/"/g,'""')` (+page.svelte lines 185-186): every double-quote
character replaced by two. -/
def escQuotes : List Char → List Char
  | [] => []
  | c :: rest => (if c = '"' then ['"', '"'] else [c]) ++ escQuotes rest

/-- One quoted CSV field: a double quote, the escaped text, a double
quote. -/
def quoteField (cs : List Char) : List Char :=
  '"' :: (escQuotes cs ++ ['"'])

/-- The CSV content built by `exportCSV` (+page.svelte lines 182-188):
header row and one row per record, each row's cells joined with a comma,
rows joined with a newline.  Date and mode cells are unquoted; input and
output cells are quoted with doubled embedded quotes. -/
def csvContent (dateFmt : Nat → String) (items : List Translation) : List Char :=
  let header := joinLists [','] ["Date".data, "Mode".data, "Input".data, "Output".data]
  let rows := items.map (fun t =>
    joinLists [','] [(dateFmt t.createdAt).data, t.mode.data,
      quoteField t.inputText.data, quoteField t.outputText.data])
  joinLists ['\n'] (header :: rows)

/-! UI history-loading state transition (src/routes/+page.svelte,
`loadHistory`, lines 86-102).  The reactive stores touched by
`loadHistory` form the state; the toast id and expiry timer are not
modelled.  The outcome of the awaited `getTranslations` call is an
explicit `Except` argument. -/

/-- One toast entry (message and type) as appended by `addToast`
(stores.js). -/
structure ToastMsg where
  message : String
  kind : String
deriving DecidableEq

/-- The reactive stores read or written by `loadHistory`. -/
structure UIState where
  historyItems : List Translation
  historyCursor : Option StoredDoc
  historyHasMore : Bool
  historyLoading : Bool
  toasts : List ToastMsg
deriving DecidableEq

/-- `addToast` of stores.js: append the toast to the queue. -/
def addToast (s : UIState) (message kind : String) : UIState :=
  { s with toasts := s.toasts ++ [{ message := message, kind := kind }] }

/-- `loadHistory` of +page.svelte lines 86-102 as a state transition:
return unchanged when the user id is falsy; on a successful call replace
or extend the items, store the new cursor and hasMore flag; on a failed
call append an error toast; in both completed cases clear the loading
flag. -/
def loadHistory (s : UIState) (uid : String) (reset : Bool)
    (outcome : Except String PaginatedResult) : UIState :=
  if uid = "" then s
  else
    match outcome with
    | .ok result =>
      { s with
        historyItems := if reset then result.translations
          else s.historyItems ++ result.translations,
        historyCursor := result.lastDoc,
        historyHasMore := result.hasMore,
        historyLoading := false }
    | .error msg =>
      { addToast s ("Failed to load history: " ++ msg) "error" with
        historyLoading := false }

/-! Token predicates used to state schematic claims about the parser: a
placeholder segment of the documented reply format is a non-empty piece of
text that does not itself contain the characters the parser keys on. -/

/-- A dash-free segment with non-whitespace first and last characters
(inner whitespace is allowed). -/
def SegTok (s : List Char) : Prop :=
  s ≠ [] ∧ (∀ c ∈ s, isDashChar c = false) ∧
    (∀ x, s.head? = some x → isWsChar x = false) ∧
    (∀ x, s.reverse.head? = some x → isWsChar x = false)

/-- A segment that moreover contains no markdown-marker characters, no
newline and no parentheses, so the cleaning pass and the tone regex leave
it alone. -/
def LineTok (s : List Char) : Prop :=
  SegTok s ∧ ∀ c ∈ s, isMdChar c = false ∧ c ≠ '\n' ∧ c ≠ '(' ∧ c ≠ ')'

/-- `LineTok` on a Lean string. -/
def IsTok (s : String) : Prop := LineTok s.data

/-- A character that survives the markdown-stripping pass and cannot act
as a line separator. -/
def GoodChar (c : Char) : Prop := isMdChar c = false ∧ c ≠ '\n'

instance (c : Char) : Decidable (GoodChar c) :=
  inferInstanceAs (Decidable (isMdChar c = false ∧ c ≠ '\n'))

/-! Utility lemmas about trimming and splitting. -/

/-- Dropping a satisfied-prefix twice is the same as once. -/
theorem dropWhile_self (p : Char → Bool) (l : List Char) :
    (l.dropWhile p).dropWhile p = l.dropWhile p := by
  induction l with
  | nil => rfl
  | cons c rest ih =>
    cases hc : p c with
    | true => simpa [List.dropWhile_cons, hc] using ih
    | false => simp [List.dropWhile_cons, hc]

/-- The head surviving a `dropWhile` fails the predicate. -/
theorem head_dropWhile {α : Type} (p : α → Bool) (l : List α) {x : α}
    (h : (l.dropWhile p).head? = some x) : p x = false := by
  induction l with
  | nil => simp [List.dropWhile] at h
  | cons c rest ih =>
    cases hc : p c with
    | true => exact ih (by simpa [List.dropWhile_cons, hc] using h)
    | false =>
      rw [List.dropWhile_cons, if_neg (by simp [hc])] at h
      simp only [List.head?_cons, Option.some.injEq] at h
      exact h ▸ hc

theorem jsTrimList_nil : jsTrimList [] = [] := rfl

/-- Dropping a prefix that covers the whole list leaves nothing. -/
theorem dropWhile_all {p : Char → Bool} {l : List Char} (h : ∀ c ∈ l, p c = true) :
    l.dropWhile p = [] := by
  induction l with
  | nil => rfl
  | cons x xs ih =>
    rw [List.dropWhile_cons_of_pos (by simpa using h x (by simp))]
    exact ih (fun c hc => h c (by simp [hc]))

/-- Trimming after dropping leading whitespace changes nothing. -/
theorem jsTrimList_dropWhile (l : List Char) :
    jsTrimList (l.dropWhile isWsChar) = jsTrimList l := by
  simp [jsTrimList, dropWhile_self]

/-- Trimming is idempotent. -/
theorem jsTrimList_idem (l : List Char) :
    jsTrimList (jsTrimList l) = jsTrimList l := by
  unfold jsTrimList
  set A := l.dropWhile isWsChar with hA
  set R := (A.reverse.dropWhile isWsChar).reverse with hR
  have hRA : R <+: A := by
    rw [← List.reverse_suffix, hR, List.reverse_reverse]
    exact List.dropWhile_suffix isWsChar
  have h1 : R.dropWhile isWsChar = R := by
    cases hRhd : R with
    | nil => rfl
    | cons x xs =>
      obtain ⟨t, ht⟩ := hRA
      rw [hRhd] at ht
      have hxA : A.head? = some x := by rw [← ht]; rfl
      have : isWsChar x = false := head_dropWhile isWsChar l (hA ▸ hxA)
      rw [List.dropWhile_cons, if_neg (by simp [this])]
  rw [h1, hR, List.reverse_reverse, dropWhile_self]

/-- Trimming strips exactly whitespace padding around a string whose ends
are not whitespace. -/
theorem jsTrimList_pad (pre t suf : List Char)
    (hpre : ∀ c ∈ pre, isWsChar c = true) (hsuf : ∀ c ∈ suf, isWsChar c = true)
    (hh : ∀ x, t.head? = some x → isWsChar x = false)
    (hl : ∀ x, t.reverse.head? = some x → isWsChar x = false) :
    jsTrimList (pre ++ t ++ suf) = t := by
  unfold jsTrimList
  rw [List.append_assoc, List.dropWhile_append_of_pos hpre]
  cases ht : t with
  | nil =>
    simp only [List.nil_append]
    simp [dropWhile_all hsuf]
  | cons x xs =>
    have hx : isWsChar x = false := hh x (by simp [ht])
    rw [List.cons_append, List.dropWhile_cons, if_neg (by simp [hx]), ← List.cons_append]
    rw [List.reverse_append, List.dropWhile_append_of_pos (by
      intro c hc; exact hsuf c (by simpa using hc))]
    cases htr : t.reverse with
    | nil => simp_all
    | cons y ys =>
      have hy : isWsChar y = false := hl y (by simp [htr])
      rw [← ht, htr, List.dropWhile_cons, if_neg (by simp [hy]), ← htr,
        List.reverse_reverse]

/-- Trimming ignores a single leading whitespace character. -/
theorem jsTrimList_cons_ws {c : Char} (h : isWsChar c = true) (l : List Char) :
    jsTrimList (c :: l) = jsTrimList l := by
  unfold jsTrimList
  rw [List.dropWhile_cons, if_pos (by simp [h])]

/-- `splitOnChar` never returns the empty list of pieces. -/
theorem splitOnChar_ne_nil (p : Char → Bool) (l : List Char) :
    splitOnChar p l ≠ [] := by
  induction l with
  | nil => simp [splitOnChar]
  | cons c rest ih =>
    rw [splitOnChar]
    cases hc : p c with
    | true => simp
    | false =>
      simp only [Bool.false_eq_true, if_false]
      cases hs : splitOnChar p rest with
      | nil => exact absurd hs ih
      | cons piece more => simp

/-- A separator-free string is one piece. -/
theorem splitOnChar_nosep (p : Char → Bool) (l : List Char)
    (h : ∀ c ∈ l, p c = false) : splitOnChar p l = [l] := by
  induction l with
  | nil => rfl
  | cons c rest ih =>
    rw [splitOnChar]
    have hc : p c = false := h c (by simp)
    simp only [hc, Bool.false_eq_true, if_false]
    rw [ih (fun x hx => h x (by simp [hx]))]

/-- Splitting at the first separator after a separator-free chunk. -/
theorem splitOnChar_append (p : Char → Bool) (xs : List Char) (c : Char)
    (ys : List Char) (hxs : ∀ x ∈ xs, p x = false) (hc : p c = true) :
    splitOnChar p (xs ++ c :: ys) = xs :: splitOnChar p ys := by
  induction xs with
  | nil => simp [splitOnChar, hc]
  | cons x rest ih =>
    have hx : p x = false := hxs x (by simp)
    rw [List.cons_append, splitOnChar]
    simp only [hx, Bool.false_eq_true, if_false]
    rw [ih (fun z hz => hxs z (by simp [hz]))]

/-- Characters of a piece come from the split string. -/
theorem mem_of_mem_splitOnChar (p : Char → Bool) {l piece : List Char} {c : Char}
    (hp : piece ∈ splitOnChar p l) (hc : c ∈ piece) : c ∈ l := by
  induction l generalizing piece with
  | nil =>
    simp [splitOnChar] at hp
    subst hp
    simp at hc
  | cons x rest ih =>
    rw [splitOnChar] at hp
    cases hx : p x with
    | true =>
      simp only [hx, if_true] at hp
      rcases List.mem_cons.mp hp with h | h
      · subst h; simp at hc
      · exact List.mem_cons_of_mem x (ih h hc)
    | false =>
      simp only [hx, Bool.false_eq_true, if_false] at hp
      cases hs : splitOnChar p rest with
      | nil => exact absurd hs (splitOnChar_ne_nil p rest)
      | cons q more =>
        rw [hs] at hp
        rcases List.mem_cons.mp hp with h | h
        · subst h
          rcases List.mem_cons.mp hc with h2 | h2
          · simp [h2]
          · exact List.mem_cons_of_mem x (ih (hs ▸ List.mem_cons_self q more) h2)
        · exact List.mem_cons_of_mem x (ih (hs ▸ List.mem_cons_of_mem q h) hc)

/-! Lemmas about the parser's building blocks on structured input. -/

theorem head?_append_left {α : Type} (l r : List α) (h : l ≠ []) :
    (l ++ r).head? = l.head? := by
  cases l with
  | nil => exact absurd rfl h
  | cons x xs => simp

/-- A dash character is not whitespace. -/
theorem isDash_not_ws {c : Char} (h : isDashChar c = true) : isWsChar c = false := by
  simp only [isDashChar, Bool.or_eq_true, decide_eq_true_eq] at h
  rcases h with (h | h) | h <;> subst h <;> rfl

theorem splitSegments_nil : splitSegments [] = [] := rfl

/-- A leading whitespace character does not change the segments. -/
theorem splitSegments_cons_ws {c : Char} (hws : isWsChar c = true)
    (hd : isDashChar c = false) (l : List Char) :
    splitSegments (c :: l) = splitSegments l := by
  unfold splitSegments
  rw [splitOnChar]
  simp only [hd, Bool.false_eq_true, if_false]
  cases hs : splitOnChar isDashChar l with
  | nil => exact absurd hs (splitOnChar_ne_nil isDashChar l)
  | cons piece more =>
    simp only [List.map_cons, List.filter_cons, jsTrimList_cons_ws hws]

/-- A single dash-free segment with clean ends splits into itself. -/
theorem splitSegments_seg (t : List Char) (ht : SegTok t) : splitSegments t = [t] := by
  obtain ⟨hne, hdash, hh, hl⟩ := ht
  unfold splitSegments
  rw [splitOnChar_nosep isDashChar t hdash]
  have : jsTrimList t = t := by
    have := jsTrimList_pad [] t [] (by simp) (by simp) hh hl
    simpa using this
  simp [this, hne]

/-- Splitting at a dash after a dash-free chunk with non-blank trim. -/
theorem splitSegments_sep (xs : List Char) (d : Char) (rest : List Char)
    (hxs : ∀ c ∈ xs, isDashChar c = false) (hd : isDashChar d = true)
    (hne : jsTrimList xs ≠ []) :
    splitSegments (xs ++ d :: rest) = jsTrimList xs :: splitSegments rest := by
  unfold splitSegments
  rw [splitOnChar_append isDashChar xs d rest hxs hd]
  simp [hne]

theorem matchHead_WORD (t : List Char) :
    matchHeadCI ['W', 'O', 'R', 'D'] ('W' :: 'O' :: 'R' :: 'D' :: t) = some t := rfl

theorem stripWordLabel_shape (dg : Char) (hdg : dg.isDigit = true) (t : List Char) :
    stripWordLabel ('W' :: 'O' :: 'R' :: 'D' :: dg :: ':' :: t) = some t := by
  rw [stripWordLabel, matchHead_WORD]
  simp only [hdg, if_true]
  rw [List.dropWhile_cons, if_neg (by simp [isWsChar])]
  rfl

theorem isWordLine_shape (dg : Char) (hdg : dg.isDigit = true) (t : List Char) :
    isWordLine ('W' :: 'O' :: 'R' :: 'D' :: dg :: ':' :: t) = true := by
  simp [isWordLine, stripWordLabel_shape dg hdg]

theorem stripLabelMark_word (dg : Char) (hdg : dg.isDigit = true) (t : List Char) :
    stripLabelMark ('W' :: 'O' :: 'R' :: 'D' :: dg :: ':' :: t) = t.dropWhile isWsChar := by
  rw [stripLabelMark, stripWordLabel_shape dg hdg]

theorem stripContextLabel_shape (t : List Char) :
    stripContextLabel ('C' :: 'O' :: 'N' :: 'T' :: 'E' :: 'X' :: 'T' :: ':' :: ' ' :: t) =
      some (t.dropWhile isWsChar) := rfl

theorem isContextLine_shape (t : List Char) :
    isContextLine ('C' :: 'O' :: 'N' :: 'T' :: 'E' :: 'X' :: 'T' :: ':' :: ' ' :: t) = true := by
  simp [isContextLine, stripContextLabel_shape]

theorem isContextLine_word (t : List Char) :
    isContextLine ('W' :: t) = false := rfl

theorem isWordLine_ctx (t : List Char) :
    isWordLine ('C' :: t) = false := rfl

/-- The leftmost-match search of the tone regex skips characters that are
not an opening parenthesis. -/
theorem toneSplit_append (xs rest : List Char) (h : ∀ c ∈ xs, c ≠ '(') :
    toneSplit (xs ++ rest) = (toneSplit rest).map (fun p => (xs ++ p.1, p.2)) := by
  induction xs with
  | nil =>
    simp only [List.nil_append]
    cases toneSplit rest <;> simp
  | cons x xs' ih =>
    have hx : x ≠ '(' := h x (by simp)
    rw [List.cons_append, toneSplit]
    rw [if_neg hx, ih (fun c hc => h c (by simp [hc])), Option.map_map]
    cases toneSplit rest with
    | none => simp
    | some p => simp [Function.comp]

/-- The tone regex matches a final parenthesized group. -/
theorem toneSplit_found (tone tail : List Char) (htone : ∀ c ∈ tone, c ≠ ')')
    (hne : tone ≠ []) (htail : tail.all isWsChar = true) :
    toneSplit ('(' :: (tone ++ ')' :: tail)) = some ([], tone) := by
  have hb : ∀ c ∈ tone, (fun x => x != ')') c = true := by
    intro c hc; simpa using htone c hc
  have hdrop : (tone ++ ')' :: tail).dropWhile (fun x => x != ')') = ')' :: tail := by
    rw [List.dropWhile_append_of_pos hb, List.dropWhile_cons]
    simp
  have htake : (tone ++ ')' :: tail).takeWhile (fun x => x != ')') = tone := by
    rw [List.takeWhile_append_of_pos hb, List.takeWhile_cons]
    simp
  rw [toneSplit, if_pos rfl, hdrop]
  simp only [htake]
  rw [if_pos ⟨hne, htail⟩]

theorem revHead_append {α : Type} (l r : List α) (h : r ≠ []) :
    (l ++ r).reverse.head? = r.reverse.head? := by
  rw [List.reverse_append]
  exact head?_append_left _ _ (by simpa using h)

theorem segTok_trim {t : List Char} (ht : SegTok t) : jsTrimList t = t := by
  have := jsTrimList_pad [] t [] (by simp) (by simp) ht.2.2.1 ht.2.2.2
  simpa using this

theorem segTok_trim_sp {t : List Char} (ht : SegTok t) : jsTrimList (t ++ [' ']) = t := by
  have := jsTrimList_pad [] t [' '] (by simp)
    (by intro c hc; simp at hc; subst hc; rfl) ht.2.2.1 ht.2.2.2
  simpa using this

theorem segTok_sp_dashfree {t : List Char} (ht : SegTok t) :
    ∀ c ∈ t ++ [' '], isDashChar c = false := by
  intro c hcmem
  rcases List.mem_append.mp hcmem with h | h
  · exact ht.2.1 c h
  · simp at h; subst h; rfl

/-- `parseWordLine` on a labelled line with exactly two segments: the line
is kept (not discarded) and the note defaults to the meaning. -/
theorem parseWordLine_two_segs (dg : Char) (hdg : dg.isDigit = true)
    (a b : List Char) (ha : SegTok a) (hb : SegTok b) :
    parseWordLine ('W' :: 'O' :: 'R' :: 'D' :: dg :: ':' :: ' ' ::
        (a ++ [' ', '-', ' '] ++ b)) = some ⟨⟨a⟩, ⟨b⟩, ⟨b⟩⟩ := by
  have hpad : jsTrimList (a ++ [' ', '-', ' '] ++ b) = a ++ [' ', '-', ' '] ++ b := by
    have h := jsTrimList_pad [] (a ++ [' ', '-', ' '] ++ b) [] (by simp) (by simp)
      (by
        intro x hx
        rw [List.append_assoc, head?_append_left _ _ ha.1] at hx
        exact ha.2.2.1 x hx)
      (by
        intro x hx
        rw [revHead_append _ _ hb.1] at hx
        exact hb.2.2.2 x hx)
    simpa using h
  have hchain : jsTrimList (stripLabelMark ('W' :: 'O' :: 'R' :: 'D' :: dg :: ':' :: ' ' ::
      (a ++ [' ', '-', ' '] ++ b))) = a ++ [' ', '-', ' '] ++ b := by
    rw [stripLabelMark_word dg hdg,
      List.dropWhile_cons_of_pos (show isWsChar ' ' = true by rfl),
      jsTrimList_dropWhile, hpad]
  have hsplit : splitSegments (a ++ [' ', '-', ' '] ++ b) = [a, b] := by
    have hshape : a ++ [' ', '-', ' '] ++ b = (a ++ [' ']) ++ ('-' :: (' ' :: b)) := by
      simp [List.append_assoc]
    rw [hshape, splitSegments_sep _ '-' _ (segTok_sp_dashfree ha) rfl
        (by rw [segTok_trim_sp ha]; exact ha.1),
      segTok_trim_sp ha, splitSegments_cons_ws (c := ' ') rfl rfl, splitSegments_seg b hb]
  simp only [parseWordLine]
  rw [hchain, hsplit]
  rfl

/-- `parseWordLine` on a labelled line with three segments. -/
theorem parseWordLine_three_segs (dg : Char) (hdg : dg.isDigit = true)
    (a b c : List Char) (ha : SegTok a) (hb : SegTok b) (hc : SegTok c) :
    parseWordLine ('W' :: 'O' :: 'R' :: 'D' :: dg :: ':' :: ' ' ::
        (a ++ [' ', '-', ' '] ++ (b ++ [' ', '-', ' '] ++ c))) =
      some ⟨⟨a⟩, ⟨b⟩, ⟨c⟩⟩ := by
  have hbsc : b ++ [' ', '-', ' '] ++ c ≠ [] := by
    intro h
    exact hc.1 (List.append_eq_nil.mp h).2
  have hpad : jsTrimList (a ++ [' ', '-', ' '] ++ (b ++ [' ', '-', ' '] ++ c)) =
      a ++ [' ', '-', ' '] ++ (b ++ [' ', '-', ' '] ++ c) := by
    have h := jsTrimList_pad [] (a ++ [' ', '-', ' '] ++ (b ++ [' ', '-', ' '] ++ c)) []
      (by simp) (by simp)
      (by
        intro x hx
        rw [List.append_assoc, head?_append_left _ _ ha.1] at hx
        exact ha.2.2.1 x hx)
      (by
        intro x hx
        rw [revHead_append _ _ hbsc, revHead_append _ _ hc.1] at hx
        exact hc.2.2.2 x hx)
    simpa using h
  have hchain : jsTrimList (stripLabelMark ('W' :: 'O' :: 'R' :: 'D' :: dg :: ':' :: ' ' ::
      (a ++ [' ', '-', ' '] ++ (b ++ [' ', '-', ' '] ++ c)))) =
      a ++ [' ', '-', ' '] ++ (b ++ [' ', '-', ' '] ++ c) := by
    rw [stripLabelMark_word dg hdg,
      List.dropWhile_cons_of_pos (show isWsChar ' ' = true by rfl),
      jsTrimList_dropWhile, hpad]
  have hsplit : splitSegments (a ++ [' ', '-', ' '] ++ (b ++ [' ', '-', ' '] ++ c)) =
      [a, b, c] := by
    have hshape : a ++ [' ', '-', ' '] ++ (b ++ [' ', '-', ' '] ++ c) =
        (a ++ [' ']) ++ ('-' :: (' ' :: (b ++ [' ', '-', ' '] ++ c))) := by
      simp [List.append_assoc]
    have hshape2 : b ++ [' ', '-', ' '] ++ c = (b ++ [' ']) ++ ('-' :: (' ' :: c)) := by
      simp [List.append_assoc]
    rw [hshape, splitSegments_sep _ '-' _ (segTok_sp_dashfree ha) rfl
        (by rw [segTok_trim_sp ha]; exact ha.1),
      segTok_trim_sp ha, splitSegments_cons_ws (c := ' ') rfl rfl, hshape2,
      splitSegments_sep _ '-' _ (segTok_sp_dashfree hb) rfl
        (by rw [segTok_trim_sp hb]; exact hb.1),
      segTok_trim_sp hb, splitSegments_cons_ws (c := ' ') rfl rfl, splitSegments_seg c hc]
  simp only [parseWordLine]
  rw [hchain, hsplit]
  dsimp only
  rw [joinLists, segTok_trim hc, if_neg hc.1]

/-- Trim identity from the two boundary conditions. -/
theorem trim_fix {t : List Char} (hh : ∀ x, t.head? = some x → isWsChar x = false)
    (hl : ∀ x, t.reverse.head? = some x → isWsChar x = false) :
    jsTrimList t = t := by
  have h := jsTrimList_pad [] t [] (by simp) (by simp) hh hl
  simpa using h

/-- Dropping whitespace does nothing when the first character of the
leading part is not whitespace. -/
theorem dropWhile_append_head {l r : List Char} (hne : l ≠ [])
    (hh : ∀ x, l.head? = some x → isWsChar x = false) :
    (l ++ r).dropWhile isWsChar = l ++ r := by
  cases l with
  | nil => exact absurd rfl hne
  | cons z zs =>
    have hz : isWsChar z = false := hh z rfl
    rw [List.cons_append, List.dropWhile_cons_of_neg (by simp [hz])]

theorem keepValid_some {a : WordEntry} (hw : a.word ≠ "") (hm : a.meaning ≠ "") :
    keepValid (some a) = some a := by
  simp [keepValid, hw, hm]

theorem keepValid_eq_some {o : Option WordEntry} {a : WordEntry}
    (h : keepValid o = some a) :
    o = some a ∧ a.word ≠ "" ∧ a.meaning ≠ "" := by
  cases o with
  | none => simp [keepValid] at h
  | some b =>
    simp only [keepValid] at h
    split at h
    · cases h
      exact ⟨rfl, by assumption⟩
    · cases h

theorem mkStr_ne_empty {l : List Char} (h : l ≠ []) : (⟨l⟩ : String) ≠ "" := by
  intro he
  exact h (by simpa using congrArg String.data he)

/-- `cleanLines` on three markdown-free, newline-free, pre-trimmed,
non-empty lines. -/
theorem cleanLines_three (l1 l2 l3 : List Char)
    (hmd : ∀ c ∈ l1 ++ l2 ++ l3, isMdChar c = false)
    (hnl : ∀ c ∈ l1 ++ l2 ++ l3, c ≠ '\n')
    (h1 : jsTrimList l1 = l1) (h2 : jsTrimList l2 = l2) (h3 : jsTrimList l3 = l3)
    (n1 : l1 ≠ []) (n2 : l2 ≠ []) (n3 : l3 ≠ []) :
    cleanLines ⟨l1 ++ '\n' :: (l2 ++ '\n' :: l3)⟩ = [l1, l2, l3] := by
  unfold cleanLines
  have hmd1 : ∀ c ∈ l1, isMdChar c = false := fun c hc => hmd c (by simp [hc])
  have hmd2 : ∀ c ∈ l2, isMdChar c = false := fun c hc => hmd c (by simp [hc])
  have hmd3 : ∀ c ∈ l3, isMdChar c = false := fun c hc => hmd c (by simp [hc])
  have hnl1 : ∀ c ∈ l1, (c == '\n') = false := fun c hc => by
    simpa using hnl c (by simp [hc])
  have hnl2 : ∀ c ∈ l2, (c == '\n') = false := fun c hc => by
    simpa using hnl c (by simp [hc])
  have hnl3 : ∀ c ∈ l3, (c == '\n') = false := fun c hc => by
    simpa using hnl c (by simp [hc])
  have hfilter : (l1 ++ '\n' :: (l2 ++ '\n' :: l3)).filter (fun c => !isMdChar c) =
      l1 ++ '\n' :: (l2 ++ '\n' :: l3) := by
    rw [List.filter_eq_self]
    intro x hx
    rcases List.mem_append.mp hx with h | h
    · simp [hmd1 x h]
    · rcases List.mem_cons.mp h with h | h
      · subst h; rfl
      · rcases List.mem_append.mp h with h | h
        · simp [hmd2 x h]
        · rcases List.mem_cons.mp h with h | h
          · subst h; rfl
          · simp [hmd3 x h]
  show ((splitOnChar (fun c => c == '\n')
      ((l1 ++ '\n' :: (l2 ++ '\n' :: l3)).filter (fun c => !isMdChar c))).map
        jsTrimList).filter (fun s => decide (s ≠ [])) = [l1, l2, l3]
  rw [hfilter, splitOnChar_append _ l1 '\n' _ hnl1 (by simp),
    splitOnChar_append _ l2 '\n' _ hnl2 (by simp),
    splitOnChar_nosep _ l3 hnl3]
  simp [h1, h2, h3, n1, n2, n3]

theorem lineTok_good {t : List Char} (h : LineTok t) : ∀ c ∈ t, GoodChar c :=
  fun c hc => ⟨(h.2 c hc).1, (h.2 c hc).2.1⟩

theorem good_append {l r : List Char} (hl' : ∀ c ∈ l, GoodChar c)
    (hr : ∀ c ∈ r, GoodChar c) : ∀ c ∈ l ++ r, GoodChar c := by
  intro c hc
  rcases List.mem_append.mp hc with h | h
  · exact hl' c h
  · exact hr c h

theorem good_cons {c0 : Char} {l : List Char} (h0 : GoodChar c0)
    (hl' : ∀ c ∈ l, GoodChar c) : ∀ c ∈ c0 :: l, GoodChar c := by
  intro c hc
  rcases List.mem_cons.mp hc with h | h
  · exact h ▸ h0
  · exact hl' c h

theorem toneOf_some {cb pre t : List Char} (h : toneSplit cb = some (pre, t)) :
    toneOf cb = jsTrimList t := by
  simp [toneOf, h]

theorem contextOf_some {cb pre t : List Char} (h : toneSplit cb = some (pre, t)) :
    contextOf cb = jsTrimList pre := by
  simp [contextOf, h]

theorem toneOf_none {cb : List Char} (h : toneSplit cb = none) :
    toneOf cb = "colloquial".data := by
  simp [toneOf, h]

theorem contextOf_none {cb : List Char} (h : toneSplit cb = none) :
    contextOf cb = jsTrimList cb := by
  simp [contextOf, h]

/-- The parser on the exact documented three-line reply, at the level of
character lists. -/
theorem parseExplanation_lines
    (bl tl al bb cl dl el fl : List Char)
    (hB : LineTok bl) (hT : LineTok tl) (hA : LineTok al) (hBB : LineTok bb)
    (hC : LineTok cl) (hD : LineTok dl) (hE : LineTok el) (hF : LineTok fl) :
    parseExplanation
      ⟨(['C', 'O', 'N', 'T', 'E', 'X', 'T', ':', ' '] ++
          (bl ++ ([' ', '('] ++ (tl ++ [')'])))) ++
        '\n' :: ((['W', 'O', 'R', 'D', '1', ':', ' '] ++
            (al ++ [' ', '-', ' '] ++ (bb ++ [' ', '-', ' '] ++ cl))) ++
          '\n' :: (['W', 'O', 'R', 'D', '2', ':', ' '] ++
            (dl ++ [' ', '-', ' '] ++ (el ++ [' ', '-', ' '] ++ fl))))⟩ =
      ⟨⟨bl⟩, ⟨tl⟩, [⟨⟨al⟩, ⟨bb⟩, ⟨cl⟩⟩, ⟨⟨dl⟩, ⟨el⟩, ⟨fl⟩⟩]⟩ := by
  -- goodness of every character of the three lines
  have g1 : ∀ c ∈ ['C', 'O', 'N', 'T', 'E', 'X', 'T', ':', ' '] ++
      (bl ++ ([' ', '('] ++ (tl ++ [')']))), GoodChar c :=
    good_append (by decide)
      (good_append (lineTok_good hB)
        (good_append (by decide) (good_append (lineTok_good hT) (by decide))))
  have g2 : ∀ c ∈ ['W', 'O', 'R', 'D', '1', ':', ' '] ++
      (al ++ [' ', '-', ' '] ++ (bb ++ [' ', '-', ' '] ++ cl)), GoodChar c :=
    good_append (by decide)
      (good_append (good_append (lineTok_good hA) (by decide))
        (good_append (good_append (lineTok_good hBB) (by decide)) (lineTok_good hC)))
  have g3 : ∀ c ∈ ['W', 'O', 'R', 'D', '2', ':', ' '] ++
      (dl ++ [' ', '-', ' '] ++ (el ++ [' ', '-', ' '] ++ fl)), GoodChar c :=
    good_append (by decide)
      (good_append (good_append (lineTok_good hD) (by decide))
        (good_append (good_append (lineTok_good hE) (by decide)) (lineTok_good hF)))
  -- boundary facts for trims
  have hrevt0 : ∀ x, (bl ++ ([' ', '('] ++ (tl ++ [')']))).reverse.head? = some x →
      isWsChar x = false := by
    intro x hx
    rw [revHead_append bl _ (by simp), revHead_append [' ', '('] _ (by simp),
      revHead_append tl [')'] (by simp)] at hx
    simp at hx
    subst hx
    rfl
  have hheadt0 : ∀ x, (bl ++ ([' ', '('] ++ (tl ++ [')']))).head? = some x →
      isWsChar x = false := by
    intro x hx
    rw [head?_append_left _ _ hB.1.1] at hx
    exact hB.1.2.2.1 x hx
  have htrim1 : jsTrimList (['C', 'O', 'N', 'T', 'E', 'X', 'T', ':', ' '] ++
      (bl ++ ([' ', '('] ++ (tl ++ [')'])))) =
      ['C', 'O', 'N', 'T', 'E', 'X', 'T', ':', ' '] ++
        (bl ++ ([' ', '('] ++ (tl ++ [')']))) := by
    apply trim_fix
    · intro x hx
      rw [head?_append_left _ _ (by simp)] at hx
      simp at hx
      subst hx
      rfl
    · intro x hx
      rw [revHead_append _ _ (by simp)] at hx
      exact hrevt0 x hx
  have htrim2 : jsTrimList (['W', 'O', 'R', 'D', '1', ':', ' '] ++
      (al ++ [' ', '-', ' '] ++ (bb ++ [' ', '-', ' '] ++ cl))) =
      ['W', 'O', 'R', 'D', '1', ':', ' '] ++
        (al ++ [' ', '-', ' '] ++ (bb ++ [' ', '-', ' '] ++ cl)) := by
    apply trim_fix
    · intro x hx
      rw [head?_append_left _ _ (by simp)] at hx
      simp at hx
      subst hx
      rfl
    · intro x hx
      rw [revHead_append _ _ (by simp), revHead_append _ _ (by simp),
        revHead_append _ _ hC.1.1] at hx
      exact hC.1.2.2.2 x hx
  have htrim3 : jsTrimList (['W', 'O', 'R', 'D', '2', ':', ' '] ++
      (dl ++ [' ', '-', ' '] ++ (el ++ [' ', '-', ' '] ++ fl))) =
      ['W', 'O', 'R', 'D', '2', ':', ' '] ++
        (dl ++ [' ', '-', ' '] ++ (el ++ [' ', '-', ' '] ++ fl)) := by
    apply trim_fix
    · intro x hx
      rw [head?_append_left _ _ (by simp)] at hx
      simp at hx
      subst hx
      rfl
    · intro x hx
      rw [revHead_append _ _ (by simp), revHead_append _ _ (by simp),
        revHead_append _ _ hF.1.1] at hx
      exact hF.1.2.2.2 x hx
  have hclean := cleanLines_three
    (['C', 'O', 'N', 'T', 'E', 'X', 'T', ':', ' '] ++ (bl ++ ([' ', '('] ++ (tl ++ [')']))))
    (['W', 'O', 'R', 'D', '1', ':', ' '] ++
      (al ++ [' ', '-', ' '] ++ (bb ++ [' ', '-', ' '] ++ cl)))
    (['W', 'O', 'R', 'D', '2', ':', ' '] ++
      (dl ++ [' ', '-', ' '] ++ (el ++ [' ', '-', ' '] ++ fl)))
    (fun c hc => (good_append (good_append g1 g2) g3 c hc).1)
    (fun c hc => (good_append (good_append g1 g2) g3 c hc).2)
    htrim1 htrim2 htrim3 (by simp) (by simp) (by simp)
  -- classification of the three lines
  have w1 : isContextLine (['C', 'O', 'N', 'T', 'E', 'X', 'T', ':', ' '] ++
      (bl ++ ([' ', '('] ++ (tl ++ [')'])))) = true :=
    isContextLine_shape _
  have w1' : isWordLine (['C', 'O', 'N', 'T', 'E', 'X', 'T', ':', ' '] ++
      (bl ++ ([' ', '('] ++ (tl ++ [')'])))) = false :=
    isWordLine_ctx _
  have w2 : isWordLine (['W', 'O', 'R', 'D', '1', ':', ' '] ++
      (al ++ [' ', '-', ' '] ++ (bb ++ [' ', '-', ' '] ++ cl))) = true :=
    isWordLine_shape '1' rfl _
  have w3 : isWordLine (['W', 'O', 'R', 'D', '2', ':', ' '] ++
      (dl ++ [' ', '-', ' '] ++ (el ++ [' ', '-', ' '] ++ fl))) = true :=
    isWordLine_shape '2' rfl _
  -- context extraction
  have hstrip : stripContextLabel (['C', 'O', 'N', 'T', 'E', 'X', 'T', ':', ' '] ++
      (bl ++ ([' ', '('] ++ (tl ++ [')'])))) =
      some (bl ++ ([' ', '('] ++ (tl ++ [')']))) := by
    have h := stripContextLabel_shape (bl ++ ([' ', '('] ++ (tl ++ [')'])))
    rw [dropWhile_append_head hB.1.1 hB.1.2.2.1] at h
    exact h
  have htrimt0 : jsTrimList (bl ++ ([' ', '('] ++ (tl ++ [')']))) =
      bl ++ ([' ', '('] ++ (tl ++ [')'])) :=
    trim_fix hheadt0 hrevt0
  have htone : toneSplit (bl ++ ([' ', '('] ++ (tl ++ [')']))) =
      some (bl ++ [' '], tl) := by
    have hshape : bl ++ ([' ', '('] ++ (tl ++ [')'])) =
        (bl ++ [' ']) ++ ('(' :: (tl ++ ')' :: [])) := by
      simp
    rw [hshape, toneSplit_append (bl ++ [' ']) _ (by
        intro x hx
        rcases List.mem_append.mp hx with h | h
        · exact (hB.2 x h).2.2.1
        · simp at h
          subst h
          decide),
      toneSplit_found tl [] (fun c hc => (hT.2 c hc).2.2.2) hT.1.1 (by simp)]
    simp
  -- the two word annotations
  have hpw2 : parseWordLine (['W', 'O', 'R', 'D', '1', ':', ' '] ++
      (al ++ [' ', '-', ' '] ++ (bb ++ [' ', '-', ' '] ++ cl))) =
      some ⟨⟨al⟩, ⟨bb⟩, ⟨cl⟩⟩ :=
    parseWordLine_three_segs '1' rfl al bb cl hA.1 hBB.1 hC.1
  have hpw3 : parseWordLine (['W', 'O', 'R', 'D', '2', ':', ' '] ++
      (dl ++ [' ', '-', ' '] ++ (el ++ [' ', '-', ' '] ++ fl))) =
      some ⟨⟨dl⟩, ⟨el⟩, ⟨fl⟩⟩ :=
    parseWordLine_three_segs '2' rfl dl el fl hD.1 hE.1 hF.1
  -- assemble
  simp only [parseExplanation]
  rw [hclean]
  rw [List.find?_cons_of_pos _ w1]
  simp only [Option.getD_some]
  rw [hstrip]
  simp only [Option.getD_some]
  rw [htrimt0, toneOf_some htone, contextOf_some htone, segTok_trim hT.1,
    segTok_trim_sp hB.1]
  rw [List.filter_cons_of_neg (by rw [w1']; exact Bool.false_ne_true),
    List.filter_cons_of_pos w2, List.filter_cons_of_pos w3, List.filter_nil]
  rw [if_neg (by simp)]
  rw [List.map_cons, List.map_cons, List.map_nil, hpw2, hpw3]
  rw [List.filterMap_cons_some
      (keepValid_some (mkStr_ne_empty hA.1.1) (mkStr_ne_empty hBB.1.1)),
    List.filterMap_cons_some
      (keepValid_some (mkStr_ne_empty hD.1.1) (mkStr_ne_empty hE.1.1)),
    List.filterMap_nil]

/-- The parser depends on the raw reply only through its characters. -/
theorem parseExplanation_congr {s t : String} (h : s.data = t.data) :
    parseExplanation s = parseExplanation t := by
  unfold parseExplanation cleanLines
  rw [h]

/-- C2: raw model text exactly of the documented form
`CONTEXT: body (tone)` / `WORD1: a - b - c` / `WORD2: d - e - f` yields
context `body` (trailing parenthetical removed), tone `tone`, and the two
annotations `a`/`b`/`c` and `d`/`e`/`f`. -/
theorem parseExplanation_example_format
    (body tone a b c d e f : String)
    (hbody : IsTok body) (htone : IsTok tone) (ha : IsTok a) (hb : IsTok b)
    (hc : IsTok c) (hd : IsTok d) (he : IsTok e) (hf : IsTok f) :
    parseExplanation ("CONTEXT: " ++ body ++ " (" ++ tone ++ ")" ++ "\n" ++
        "WORD1: " ++ a ++ " - " ++ b ++ " - " ++ c ++ "\n" ++
        "WORD2: " ++ d ++ " - " ++ e ++ " - " ++ f) =
      { context := body, tone := tone,
        annotations := [⟨a, b, c⟩, ⟨d, e, f⟩] } := by
  have hdata : ("CONTEXT: " ++ body ++ " (" ++ tone ++ ")" ++ "\n" ++
      "WORD1: " ++ a ++ " - " ++ b ++ " - " ++ c ++ "\n" ++
      "WORD2: " ++ d ++ " - " ++ e ++ " - " ++ f).data =
      ((⟨(['C', 'O', 'N', 'T', 'E', 'X', 'T', ':', ' '] ++
          (body.data ++ ([' ', '('] ++ (tone.data ++ [')'])))) ++
        '\n' :: ((['W', 'O', 'R', 'D', '1', ':', ' '] ++
            (a.data ++ [' ', '-', ' '] ++ (b.data ++ [' ', '-', ' '] ++ c.data))) ++
          '\n' :: (['W', 'O', 'R', 'D', '2', ':', ' '] ++
            (d.data ++ [' ', '-', ' '] ++ (e.data ++ [' ', '-', ' '] ++ f.data))))⟩ :
        String)).data := by
    simp only [String.data_append,
      show "CONTEXT: ".data = ['C', 'O', 'N', 'T', 'E', 'X', 'T', ':', ' '] from rfl,
      show " (".data = [' ', '('] from rfl,
      show ")".data = [')'] from rfl,
      show "\n".data = ['\n'] from rfl,
      show "WORD1: ".data = ['W', 'O', 'R', 'D', '1', ':', ' '] from rfl,
      show "WORD2: ".data = ['W', 'O', 'R', 'D', '2', ':', ' '] from rfl,
      show " - ".data = [' ', '-', ' '] from rfl]
    simp [List.append_assoc]
  rw [parseExplanation_congr hdata]
  exact parseExplanation_lines body.data tone.data a.data b.data c.data d.data e.data
    f.data hbody htone ha hb hc hd he hf

/-! Structural validity of parsed annotations. -/

/-- Every segment produced by `splitSegments` is trimmed and non-empty. -/
theorem splitSegments_mem {b x : List Char} (hx : x ∈ splitSegments b) :
    jsTrimList x = x ∧ x ≠ [] := by
  unfold splitSegments at hx
  have h1 := List.mem_filter.mp hx
  obtain ⟨y, hy, hxy⟩ := List.mem_map.mp h1.1
  constructor
  · rw [← hxy, jsTrimList_idem]
  · simpa using h1.2

/-- A successful `parseWordLine` yields a trimmed word and meaning. -/
theorem parseWordLine_trimmed {l : List Char} {a : WordEntry}
    (h : parseWordLine l = some a) :
    jsTrim a.word = a.word ∧ jsTrim a.meaning = a.meaning := by
  simp only [parseWordLine] at h
  cases hs : splitSegments (jsTrimList (stripLabelMark l)) with
  | nil => rw [hs] at h; cases h
  | cons w rest =>
    cases rest with
    | nil => rw [hs] at h; cases h
    | cons m nps =>
      rw [hs] at h
      have hwmem : w ∈ splitSegments (jsTrimList (stripLabelMark l)) :=
        hs ▸ List.mem_cons_self w _
      have hmmem : m ∈ splitSegments (jsTrimList (stripLabelMark l)) :=
        hs ▸ List.mem_cons_of_mem w (List.mem_cons_self m nps)
      obtain ⟨hwt, _⟩ := splitSegments_mem hwmem
      obtain ⟨hmt, _⟩ := splitSegments_mem hmmem
      simp only [Option.some.injEq] at h
      rw [← h]
      constructor
      · show jsTrim ⟨w⟩ = (⟨w⟩ : String)
        simp [jsTrim, hwt]
      · show jsTrim ⟨m⟩ = (⟨m⟩ : String)
        simp [jsTrim, hmt]

/-- C1: on every raw model reply, the response-parsing stage of
`explainTranslation` (a total function, so it terminates and cannot
throw) returns an explanation whose context and tone are strings by
construction and whose every annotation entry has a word and a meaning
that remain non-empty after trimming. -/
theorem parseExplanation_entries_valid (raw : String) :
    ∀ a ∈ (parseExplanation raw).annotations,
      jsTrim a.word ≠ "" ∧ jsTrim a.meaning ≠ "" := by
  intro a ha
  simp only [parseExplanation] at ha
  obtain ⟨o, ho, hko⟩ := List.mem_filterMap.mp ha
  obtain ⟨heq, hw, hm⟩ := keepValid_eq_some hko
  subst heq
  obtain ⟨line, hline, hpl⟩ := List.mem_map.mp ho
  obtain ⟨htw, htm⟩ := parseWordLine_trimmed hpl
  exact ⟨by rw [htw]; exact hw, by rw [htm]; exact hm⟩

/-- Witness for C1 at a concrete reply. -/
theorem parseExplanation_entries_valid_w :
    jsTrim (⟨"a", "b", "c"⟩ : WordEntry).word ≠ "" ∧
      jsTrim (⟨"a", "b", "c"⟩ : WordEntry).meaning ≠ "" :=
  parseExplanation_entries_valid "WORD1: a - b - c" ⟨"a", "b", "c"⟩ (by decide)

/-! Establishing the token predicates by computation. -/

theorem segTok_of {s : List Char} (hne : s ≠ [])
    (hdash : ∀ c ∈ s, isDashChar c = false)
    (hh : s.head?.all (fun c => !isWsChar c) = true)
    (hl : s.reverse.head?.all (fun c => !isWsChar c) = true) : SegTok s := by
  refine ⟨hne, hdash, ?_, ?_⟩
  · intro x hx
    rw [hx] at hh
    simpa using hh
  · intro x hx
    rw [hx] at hl
    simpa using hl

theorem isTok_of {s : String} (hne : s.data ≠ [])
    (hall : ∀ c ∈ s.data, isDashChar c = false ∧ isMdChar c = false ∧
      c ≠ '\n' ∧ c ≠ '(' ∧ c ≠ ')')
    (hh : s.data.head?.all (fun c => !isWsChar c) = true)
    (hl : s.data.reverse.head?.all (fun c => !isWsChar c) = true) : IsTok s :=
  ⟨segTok_of hne (fun c hc => (hall c hc).1) hh hl, fun c hc => (hall c hc).2⟩

/-- Witness for C2 at the documented example. -/
theorem parseExplanation_example_format_w :
    parseExplanation ("CONTEXT: " ++ "Medellín streets hum with loyalty." ++ " (" ++
        "warm, rhythmic" ++ ")" ++ "\n" ++
        "WORD1: " ++ "parce" ++ " - " ++ "close friend" ++ " - " ++
          "the brotherhood of Paisa street culture." ++ "\n" ++
        "WORD2: " ++ "chimba" ++ " - " ++ "excellent" ++ " - " ++
          "the highest Paisa compliment.") =
      { context := "Medellín streets hum with loyalty.", tone := "warm, rhythmic",
        annotations :=
          [⟨"parce", "close friend", "the brotherhood of Paisa street culture."⟩,
           ⟨"chimba", "excellent", "the highest Paisa compliment."⟩] } :=
  parseExplanation_example_format "Medellín streets hum with loyalty."
    "warm, rhythmic" "parce" "close friend" "the brotherhood of Paisa street culture."
    "chimba" "excellent" "the highest Paisa compliment."
    (isTok_of (by decide) (by decide) (by decide) (by decide))
    (isTok_of (by decide) (by decide) (by decide) (by decide))
    (isTok_of (by decide) (by decide) (by decide) (by decide))
    (isTok_of (by decide) (by decide) (by decide) (by decide))
    (isTok_of (by decide) (by decide) (by decide) (by decide))
    (isTok_of (by decide) (by decide) (by decide) (by decide))
    (isTok_of (by decide) (by decide) (by decide) (by decide))
    (isTok_of (by decide) (by decide) (by decide) (by decide))

/-! C3: the two-annotation bound. -/

/-- C3 counterexample: a reply with three labelled WORD lines yields three
annotations — more than the claimed maximum of two. -/
theorem parseExplanation_three_word_lines :
    2 < (parseExplanation
        "WORD1: a - b - c\nWORD2: d - e - f\nWORD3: g - h - i").annotations.length := by
  decide

/-- C3 amended: the annotation count is bounded by two only when at most
two labelled WORD lines are present; in general it is bounded by the
maximum of two and the number of labelled lines (the fallback branch
truncates to two, the labelled branch does not truncate). -/
theorem parseExplanation_annotations_bound (raw : String) :
    (parseExplanation raw).annotations.length ≤
      max 2 ((cleanLines raw).countP isWordLine) := by
  have hlen : ∀ ls : List (List Char),
      ((ls.map parseWordLine).filterMap keepValid).length ≤ ls.length := by
    intro ls
    calc ((ls.map parseWordLine).filterMap keepValid).length
        ≤ (ls.map parseWordLine).length := List.length_filterMap_le _ _
      _ = ls.length := List.length_map _ _
  simp only [parseExplanation]
  by_cases h : ((cleanLines raw).filter isWordLine).length < 2
  · rw [if_pos h]
    refine le_trans (hlen _) (le_trans ?_ (le_max_left 2 _))
    exact List.length_take_le 2 _
  · rw [if_neg h]
    refine le_trans (hlen _) ?_
    rw [List.countP_eq_length_filter]
    exact le_max_right 2 _

/-! C4: lines with a single separator. -/

/-- C4 counterexample: a labelled line with exactly one separator is NOT
excluded — it produces an annotation (with the note defaulted to the
meaning). -/
theorem parseExplanation_single_sep_kept :
    (parseExplanation "WORD1: a - b").annotations = [⟨"a", "b", "b"⟩] := by
  decide

/-- C4 amended: a labelled word line with exactly one separator (two
segments) is kept, yielding an annotation whose note equals the meaning;
only splits with fewer than two segments are discarded. -/
theorem parseWordLine_one_sep (w m : String) (hw : IsTok w) (hm : IsTok m) :
    parseWordLine ("WORD1: " ++ w ++ " - " ++ m).data = some ⟨w, m, m⟩ := by
  have hdata : ("WORD1: " ++ w ++ " - " ++ m).data =
      'W' :: 'O' :: 'R' :: 'D' :: '1' :: ':' :: ' ' ::
        (w.data ++ [' ', '-', ' '] ++ m.data) := by
    simp only [String.data_append,
      show "WORD1: ".data = ['W', 'O', 'R', 'D', '1', ':', ' '] from rfl,
      show " - ".data = [' ', '-', ' '] from rfl]
    simp [List.append_assoc]
  rw [hdata]
  exact parseWordLine_two_segs '1' rfl w.data m.data hw.1 hm.1

/-- Witness for C4's amended claim. -/
theorem parseWordLine_one_sep_w :
    parseWordLine ("WORD1: " ++ "parce" ++ " - " ++ "close friend").data =
      some ⟨"parce", "close friend", "close friend"⟩ :=
  parseWordLine_one_sep "parce" "close friend"
    (isTok_of (by decide) (by decide) (by decide) (by decide))
    (isTok_of (by decide) (by decide) (by decide) (by decide))

/-! C5: separators need no surrounding whitespace. -/

/-- C5 counterexample: the hyphen embedded in `street-smart`, with no
adjacent whitespace, does split the text into two segments. -/
theorem splitSegments_embedded_hyphen :
    splitSegments "street-smart".data = ["street".data, "smart".data] := by
  decide

/-- C5 amended: the separator is a dash character with optional (possibly
absent) surrounding whitespace, so a bare dash between two clean segments
always separates them. -/
theorem splitSegments_bare_dash (u v : List Char) (hu : SegTok u) (hv : SegTok v) :
    splitSegments (u ++ '-' :: v) = [u, v] := by
  rw [splitSegments_sep u '-' v hu.2.1 rfl (by rw [segTok_trim hu]; exact hu.1),
    segTok_trim hu, splitSegments_seg v hv]

/-- Witness for C5's amended claim. -/
theorem splitSegments_bare_dash_w :
    splitSegments ("street".data ++ '-' :: "smart".data) =
      ["street".data, "smart".data] :=
  splitSegments_bare_dash "street".data "smart".data
    (segTok_of (by decide) (by decide) (by decide) (by decide))
    (segTok_of (by decide) (by decide) (by decide) (by decide))

/-! C6: behaviour without a CONTEXT-labelled line. -/

/-- C6 counterexample: with no CONTEXT-labelled line the tone does not
default to `colloquial` — a trailing parenthetical on the fallback line is
still extracted as the tone. -/
theorem parseExplanation_fallback_tone :
    ((cleanLines "hola (warm)").all (fun l => !isContextLine l)) = true ∧
      (parseExplanation "hola (warm)").tone = "warm" ∧
      (parseExplanation "hola (warm)").tone ≠ "colloquial" := by
  refine ⟨by decide, by decide, by decide⟩

/-- Every cleaned line is already trimmed. -/
theorem cleanLines_mem_trim {raw : String} {l : List Char}
    (h : l ∈ cleanLines raw) : jsTrimList l = l := by
  unfold cleanLines at h
  have h1 := List.mem_filter.mp h
  obtain ⟨y, hy, hxy⟩ := List.mem_map.mp h1.1
  rw [← hxy, jsTrimList_idem]

/-- C6 amended: with no CONTEXT-labelled line, the first non-empty line is
taken as the context (empty when there are no lines) and the tone defaults
to `colloquial` — provided the fallback line carries no trailing
parenthetical, which would still be extracted as a tone. -/
theorem parseExplanation_no_context_defaults (raw : String)
    (h1 : ∀ l ∈ cleanLines raw, isContextLine l = false)
    (h2 : toneSplit ((cleanLines raw).headD []) = none) :
    (parseExplanation raw).tone = "colloquial" ∧
      (parseExplanation raw).context = ⟨(cleanLines raw).headD []⟩ := by
  have hfind : (cleanLines raw).find? isContextLine = none :=
    List.find?_eq_none.mpr (by intro x hx; simp [h1 x hx])
  have hlineTrim : jsTrimList ((cleanLines raw).headD []) = (cleanLines raw).headD [] := by
    cases hcl : cleanLines raw with
    | nil => rfl
    | cons l ls =>
      simpa using cleanLines_mem_trim (hcl ▸ List.mem_cons_self l ls)
  have hstripn : stripContextLabel ((cleanLines raw).headD []) = none := by
    cases hcl : cleanLines raw with
    | nil => rfl
    | cons l ls =>
      have hfalse := h1 l (hcl ▸ List.mem_cons_self l ls)
      cases hsc : stripContextLabel l with
      | none => simpa using hsc
      | some v =>
        rw [isContextLine, hsc] at hfalse
        simp at hfalse
  rw [List.headD_eq_head?_getD] at hlineTrim hstripn h2
  simp [parseExplanation, hfind, hstripn, hlineTrim, toneOf_none h2,
    contextOf_none h2]

/-- Witness for C6's amended claim. -/
theorem parseExplanation_no_context_defaults_w :
    (parseExplanation "hola parce").tone = "colloquial" ∧
      (parseExplanation "hola parce").context = ⟨(cleanLines "hola parce").headD []⟩ :=
  parseExplanation_no_context_defaults "hola parce" (by decide) (by decide)

/-! C10: blank or markdown-only input. -/

/-- All-whitespace text trims to nothing. -/
theorem jsTrimList_all_ws {l : List Char} (h : ∀ c ∈ l, isWsChar c = true) :
    jsTrimList l = [] := by
  unfold jsTrimList
  rw [dropWhile_all h]
  rfl

/-- C10: when the raw reply is empty or contains only whitespace and
markdown-marker characters, no line survives cleaning and the parser
returns the all-default explanation. -/
theorem parseExplanation_blank_input (raw : String)
    (h : ∀ c ∈ raw.data, isMdChar c = true ∨ isWsChar c = true) :
    parseExplanation raw = ⟨"", "colloquial", []⟩ := by
  have hclean : cleanLines raw = [] := by
    unfold cleanLines
    rw [List.filter_eq_nil_iff]
    intro x hx
    obtain ⟨piece, hpiece, hxp⟩ := List.mem_map.mp hx
    have hws : ∀ c ∈ piece, isWsChar c = true := by
      intro c hc
      have hcmem : c ∈ raw.data.filter (fun c => !isMdChar c) :=
        mem_of_mem_splitOnChar _ hpiece hc
      have h2 := List.mem_filter.mp hcmem
      rcases h (c := c) h2.1 with hmd | hws
      · rw [hmd] at h2
        simp at h2
      · exact hws
    rw [← hxp, jsTrimList_all_ws hws]
    simp
  simp only [parseExplanation, hclean]
  rfl

/-- Witness for C10 at the empty reply. -/
theorem parseExplanation_blank_input_w :
    parseExplanation "" = ⟨"", "colloquial", []⟩ :=
  parseExplanation_blank_input "" (by decide)

/-! C7: pagination contract of `getTranslations`. -/

theorem docLe_refl (d : StoredDoc) : docLe d d :=
  Or.inr ⟨rfl, le_refl _⟩

theorem docLe_trans {a b c : StoredDoc} (hab : docLe a b) (hbc : docLe b c) :
    docLe a c := by
  rcases hab with h1 | ⟨e1, i1⟩
  · rcases hbc with h2 | ⟨e2, i2⟩
    · exact Or.inl (h2.trans h1)
    · exact Or.inl (e2 ▸ h1)
  · rcases hbc with h2 | ⟨e2, i2⟩
    · exact Or.inl (e1 ▸ h2)
    · exact Or.inr ⟨e2.trans e1, i1.trans i2⟩

theorem docLe_total (a b : StoredDoc) : docLe a b ∨ docLe b a := by
  rcases Nat.lt_trichotomy a.createdAt b.createdAt with h | h | h
  · exact Or.inr (Or.inl h)
  · rcases Nat.le_total a.id b.id with h2 | h2
    · exact Or.inl (Or.inr ⟨h.symm, h2⟩)
    · exact Or.inr (Or.inr ⟨h, h2⟩)
  · exact Or.inl (Or.inl h)

theorem docLe_created {a b : StoredDoc} (h : docLe a b) :
    b.createdAt ≤ a.createdAt := by
  rcases h with h | ⟨h, _⟩
  · exact le_of_lt h
  · exact le_of_eq h

/-- The documents beyond the cursor are ordered. -/
theorem afterCursor_sorted (store : List StoredDoc) (uid : String)
    (cursor : Option StoredDoc) :
    (afterCursorDocs store uid cursor).Pairwise docLe := by
  cases cursor with
  | none => exact List.sorted_insertionSort docLe _
  | some c =>
    exact List.Pairwise.sublist (List.dropWhile_sublist _)
      (List.sorted_insertionSort docLe _)

/-- Every document returned beyond the cursor lies strictly after the
cursor document in the result order. -/
theorem afterCursor_not_le (store : List StoredDoc) (uid : String) (c : StoredDoc) :
    ∀ d ∈ afterCursorDocs store uid (some c), ¬ docLe d c := by
  intro d hd hcon
  have hd' : d ∈ (List.insertionSort docLe
      (store.filter (fun d => d.userId == uid))).dropWhile
        (fun d => decide (docLe d c)) := hd
  have hsort : (List.insertionSort docLe
      (store.filter (fun d => d.userId == uid))).Pairwise docLe :=
    List.sorted_insertionSort docLe _
  cases hdw : (List.insertionSort docLe
      (store.filter (fun d => d.userId == uid))).dropWhile
        (fun d => decide (docLe d c)) with
  | nil =>
    rw [hdw] at hd'
    simp at hd'
  | cons d0 rest =>
    have hd0 : decide (docLe d0 c) = false :=
      head_dropWhile (fun d => decide (docLe d c)) _ (by rw [hdw]; rfl)
    have hd0' : ¬ docLe d0 c := by simpa using hd0
    rw [hdw] at hd'
    rcases List.mem_cons.mp hd' with h | h
    · exact hd0' (h ▸ hcon)
    · have hsub : ((List.insertionSort docLe
          (store.filter (fun d => d.userId == uid))).dropWhile
            (fun d => decide (docLe d c))).Pairwise docLe :=
        List.Pairwise.sublist (List.dropWhile_sublist _) hsort
      rw [hdw] at hsub
      exact hd0' (docLe_trans ((List.pairwise_cons.mp hsub).1 d h) hcon)

/-- In an ordered list, every element relates to the last one. -/
theorem pairwise_getLast {α : Type} {R : α → α → Prop} (hrefl : ∀ x, R x x) :
    ∀ {l : List α} {c : α}, l.Pairwise R → l.getLast? = some c → ∀ e ∈ l, R e c := by
  intro l
  induction l with
  | nil =>
    intro c _ hlast
    simp at hlast
  | cons x xs ih =>
    intro c hpw hlast e he
    cases xs with
    | nil =>
      simp only [List.getLast?_singleton, Option.some.injEq] at hlast
      simp only [List.mem_singleton] at he
      subst hlast
      subst he
      exact hrefl _
    | cons y ys =>
      rw [List.getLast?_cons_cons] at hlast
      rcases List.mem_cons.mp he with h | h
      · subst h
        exact (List.pairwise_cons.mp hpw).1 c (List.mem_of_getLast?_eq_some hlast)
      · exact ih (List.pairwise_cons.mp hpw).2 hlast e h

theorem toTranslation_inj {d1 d2 : StoredDoc} (h : toTranslation d1 = toTranslation d2) :
    d1 = d2 := by
  cases d1
  cases d2
  simp only [toTranslation, Translation.mk.injEq] at h
  simpa [StoredDoc.mk.injEq] using h

/-- The returned slice is always the first `PAGE_SIZE` documents beyond
the cursor, and the continuation cursor is its last element. -/
theorem getTranslations_pageDocs (store : List StoredDoc) (uid : String)
    (cursor : Option StoredDoc) :
    (getTranslations store uid cursor).translations =
      ((afterCursorDocs store uid cursor).take PAGE_SIZE).map toTranslation ∧
    (getTranslations store uid cursor).lastDoc =
      ((afterCursorDocs store uid cursor).take PAGE_SIZE).getLast? := by
  simp only [getTranslations, queryDocs]
  by_cases h : PAGE_SIZE < ((afterCursorDocs store uid cursor).take (PAGE_SIZE + 1)).length
  · rw [if_pos h]
    have ht : ((afterCursorDocs store uid cursor).take (PAGE_SIZE + 1)).take PAGE_SIZE =
        (afterCursorDocs store uid cursor).take PAGE_SIZE := by
      rw [List.take_take]
      norm_num [PAGE_SIZE]
    rw [ht]
    exact ⟨rfl, rfl⟩
  · rw [if_neg h]
    rw [List.length_take] at h
    simp only [PAGE_SIZE] at h ⊢
    have hlen : (afterCursorDocs store uid cursor).length ≤ 10 := by omega
    rw [List.take_of_length_le (by omega), List.take_of_length_le hlen]
    exact ⟨rfl, rfl⟩

/-- C7: `getTranslations` requests one document beyond the fixed page size
of 10; it returns at most 10 records, in descending creation-time order;
`hasMore` holds exactly when more than 10 matching documents lie beyond
the cursor; a null cursor starts from the newest record (the page is the
prefix of the ordered matching documents); and following the returned
cursor yields records that are older (or tied) and non-overlapping with
the current page. -/
theorem getTranslations_page_spec (store : List StoredDoc) (uid : String)
    (cursor : Option StoredDoc) :
    (getTranslations store uid cursor).translations.length ≤ PAGE_SIZE ∧
    ((getTranslations store uid cursor).translations.map Translation.createdAt).Pairwise
      (fun x y => y ≤ x) ∧
    ((getTranslations store uid cursor).hasMore = true ↔
      PAGE_SIZE < (afterCursorDocs store uid cursor).length) ∧
    (cursor = none →
      (getTranslations store uid cursor).translations =
        ((List.insertionSort docLe (store.filter (fun d => d.userId == uid))).take
          PAGE_SIZE).map toTranslation) ∧
    (∀ c, (getTranslations store uid cursor).lastDoc = some c →
      ∀ t2 ∈ (getTranslations store uid (some c)).translations,
        t2 ∉ (getTranslations store uid cursor).translations ∧
        ∀ t1 ∈ (getTranslations store uid cursor).translations,
          t2.createdAt ≤ t1.createdAt) := by
  obtain ⟨htr, hlast⟩ := getTranslations_pageDocs store uid cursor
  have hsortedPage : ((afterCursorDocs store uid cursor).take PAGE_SIZE).Pairwise docLe :=
    List.Pairwise.sublist (List.take_sublist _ _) (afterCursor_sorted store uid cursor)
  refine ⟨?_, ?_, ?_, ?_, ?_⟩
  · rw [htr, List.length_map]
    exact List.length_take_le _ _
  · rw [htr, List.map_map]
    rw [List.pairwise_map]
    exact hsortedPage.imp (fun h => docLe_created h)
  · show (decide (PAGE_SIZE < ((afterCursorDocs store uid cursor).take
      (PAGE_SIZE + 1)).length) = true) ↔ _
    rw [decide_eq_true_iff, List.length_take]
    omega
  · intro hnone
    subst hnone
    rw [htr]
    rfl
  · intro c hc t2 ht2
    obtain ⟨htr2, _⟩ := getTranslations_pageDocs store uid (some c)
    rw [htr2] at ht2
    obtain ⟨d2, hd2, hd2t⟩ := List.mem_map.mp ht2
    have hd2A : d2 ∈ afterCursorDocs store uid (some c) :=
      (List.take_sublist _ _).mem hd2
    have hd2not : ¬ docLe d2 c := afterCursor_not_le store uid c d2 hd2A
    have hpage1 : ∀ e ∈ (afterCursorDocs store uid cursor).take PAGE_SIZE, docLe e c :=
      pairwise_getLast docLe_refl hsortedPage (by rw [← hlast]; exact hc)
    constructor
    · intro hmem
      rw [htr] at hmem
      obtain ⟨e, he, het⟩ := List.mem_map.mp hmem
      have : e = d2 := toTranslation_inj (by rw [het, hd2t])
      exact hd2not (this ▸ hpage1 e he)
    · intro t1 ht1
      rw [htr] at ht1
      obtain ⟨e, he, het⟩ := List.mem_map.mp ht1
      have h1 : docLe e c := hpage1 e he
      have h2 : docLe c d2 := (docLe_total c d2).resolve_right hd2not
      have hcc : d2.createdAt ≤ c.createdAt := docLe_created h2
      have hce : c.createdAt ≤ e.createdAt := docLe_created h1
      rw [← hd2t, ← het]
      exact le_trans hcc hce

/-- Witness for C7: on the twelve-record demo store, the first page is the
ten newest records and the second page does not overlap it. -/
theorem getTranslations_page_spec_w :
    (getTranslations demoStore "u" none).translations =
      ((List.insertionSort docLe (demoStore.filter (fun d => d.userId == "u"))).take
        PAGE_SIZE).map toTranslation ∧
    ∀ t2 ∈ (getTranslations demoStore "u"
        (some ⟨2, "u", "in", "out", "en-paisa", 2⟩)).translations,
      t2 ∉ (getTranslations demoStore "u" none).translations := by
  refine ⟨(getTranslations_page_spec demoStore "u" none).2.2.2.1 rfl, ?_⟩
  intro t2 ht2
  exact ((getTranslations_page_spec demoStore "u" none).2.2.2.2
    ⟨2, "u", "in", "out", "en-paisa", 2⟩ (by decide) t2 ht2).1

/-! C8: the CSV content. -/

/-- Quote escaping introduces no new characters. -/
theorem mem_escQuotes {l : List Char} {c : Char} (h : c ∈ escQuotes l) : c ∈ l := by
  induction l with
  | nil => simp [escQuotes] at h
  | cons x rest ih =>
    rw [escQuotes] at h
    rcases List.mem_append.mp h with h1 | h1
    · by_cases hx : x = '"'
      · subst hx
        simp at h1
        simp [h1]
      · rw [if_neg hx] at h1
        simp at h1
        simp [h1]
    · exact List.mem_cons_of_mem x (ih h1)

/-- Quote escaping exactly doubles the quote count. -/
theorem count_escQuotes (l : List Char) :
    (escQuotes l).count '"' = 2 * l.count '"' := by
  induction l with
  | nil => rfl
  | cons x rest ih
  => by_cases hx : x = '"'
     all_goals simp [escQuotes, hx, List.count_append, List.count_cons, ih]
     all_goals omega

theorem mem_quoteField {l : List Char} {c : Char} (h : c ∈ quoteField l) :
    c = '"' ∨ c ∈ l := by
  simp only [quoteField, List.mem_cons, List.mem_append, List.mem_singleton,
    List.not_mem_nil, or_false] at h
  rcases h with h | h | h
  · exact Or.inl h
  · exact Or.inr (mem_escQuotes h)
  · exact Or.inl h

theorem count_quoteField (l : List Char) :
    (quoteField l).count '"' = 2 + 2 * l.count '"' := by
  simp [quoteField, List.count_cons, List.count_append, count_escQuotes]
  omega

/-- Characters of a join come from the separator or from a piece. -/
theorem mem_joinLists {sep : List Char} {rs : List (List Char)} {c : Char}
    (h : c ∈ joinLists sep rs) : c ∈ sep ∨ ∃ r ∈ rs, c ∈ r := by
  induction rs with
  | nil => simp [joinLists] at h
  | cons x rest ih =>
    cases rest with
    | nil =>
      simp only [joinLists] at h
      exact Or.inr ⟨x, by simp, h⟩
    | cons y rest2 =>
      simp only [joinLists] at h
      rcases List.mem_append.mp h with h1 | h1
      · rcases List.mem_append.mp h1 with h2 | h2
        · exact Or.inr ⟨x, by simp, h2⟩
        · exact Or.inl h2
      · rcases ih h1 with h2 | ⟨r, hr, hcr⟩
        · exact Or.inl h2
        · exact Or.inr ⟨r, by simp [hr], hcr⟩

/-- Counting a character absent from the separator distributes over a
join. -/
theorem count_joinLists (sep : List Char) (ch : Char) (hsep : sep.count ch = 0)
    (rs : List (List Char)) :
    (joinLists sep rs).count ch = (rs.map (fun r => r.count ch)).sum := by
  induction rs with
  | nil => simp [joinLists]
  | cons x rest ih =>
    cases rest with
    | nil => simp [joinLists]
    | cons y rest2 =>
      simp only [joinLists, List.map_cons, List.sum_cons]
      rw [List.count_append, List.count_append, hsep, ih]
      simp only [List.map_cons, List.sum_cons]
      omega

/-- Splitting a newline-join of newline-free rows recovers the rows. -/
theorem splitOnChar_joinLists (rs : List (List Char)) (hne : rs ≠ [])
    (h : ∀ r ∈ rs, ∀ c ∈ r, (c == '\n') = false) :
    splitOnChar (fun c => c == '\n') (joinLists ['\n'] rs) = rs := by
  induction rs with
  | nil => exact absurd rfl hne
  | cons x rest ih =>
    cases rest with
    | nil =>
      simp only [joinLists]
      exact splitOnChar_nosep _ x (h x (by simp))
    | cons y rest2 =>
      simp only [joinLists]
      have hshape : x ++ ['\n'] ++ joinLists ['\n'] (y :: rest2) =
          x ++ '\n' :: joinLists ['\n'] (y :: rest2) := by simp
      rw [hshape, splitOnChar_append _ x '\n' _ (h x (by simp)) (by simp)]
      rw [ih (by simp) (fun r hr => h r (by simp [hr]))]

/-- C8 counterexample: a record whose input embeds a newline makes the
exported content split into more than N+1 lines. -/
theorem csvContent_embedded_newline :
    (splitOnChar (fun c => c == '\n')
        (csvContent (fun _ => "1970-01-01T00:00:00.000Z")
          [⟨0, "u", "a\nb", "o", "en-paisa", 0⟩])).length ≠
      [(⟨0, "u", "a\nb", "o", "en-paisa", 0⟩ : Translation)].length + 1 := by
  decide

/-- C8 amended: provided no formatted date, mode, input or output embeds a
newline, the content has exactly N+1 newline-separated lines; and with
quote-free dates and modes, the quote count of the content is four wrapper
quotes per row plus twice the number of embedded quotes of each input and
output — every embedded double-quote is doubled. -/
theorem csvContent_lines_quotes (dateFmt : Nat → String) (items : List Translation)
    (hnl : ∀ t ∈ items, (∀ c ∈ (dateFmt t.createdAt).data, c ≠ '\n') ∧
      (∀ c ∈ t.mode.data, c ≠ '\n') ∧ (∀ c ∈ t.inputText.data, c ≠ '\n') ∧
      (∀ c ∈ t.outputText.data, c ≠ '\n'))
    (hq : ∀ t ∈ items, (∀ c ∈ (dateFmt t.createdAt).data, c ≠ '"') ∧
      (∀ c ∈ t.mode.data, c ≠ '"')) :
    (splitOnChar (fun c => c == '\n') (csvContent dateFmt items)).length =
      items.length + 1 ∧
    (csvContent dateFmt items).count '"' =
      (items.map (fun t => 4 + 2 * t.inputText.data.count '"' +
        2 * t.outputText.data.count '"')).sum := by
  constructor
  · simp only [csvContent]
    rw [splitOnChar_joinLists _ (by simp) ?rows]
    · simp
    case rows =>
      intro r hr
      rcases List.mem_cons.mp hr with h | h
      · subst h
        decide
      · obtain ⟨t, ht, hrt⟩ := List.mem_map.mp h
        subst hrt
        intro c hc
        rcases mem_joinLists hc with hsep | ⟨cell, hcell, hccell⟩
        · simp at hsep
          simp [hsep]
        · obtain ⟨h1, h2, h3, h4⟩ := hnl t ht
          simp only [List.mem_cons, List.mem_singleton] at hcell
          rcases hcell with h | h | h | h | h
          · subst h; simpa using h1 c hccell
          · subst h; simpa using h2 c hccell
          · subst h
            rcases mem_quoteField hccell with h | h
            · simp [h]
            · simpa using h3 c h
          · subst h
            rcases mem_quoteField hccell with h | h
            · simp [h]
            · simpa using h4 c h
          · simp at h
  · simp only [csvContent]
    rw [count_joinLists ['\n'] '"' (by decide)]
    simp only [List.map_cons, List.sum_cons, List.map_map]
    have hhead : (joinLists [','] ["Date".data, "Mode".data, "Input".data,
        "Output".data]).count '"' = 0 := by decide
    rw [hhead]
    have hrow : ∀ t ∈ items,
        ((fun r => r.count '"') ∘ fun t => joinLists [',']
          [(dateFmt t.createdAt).data, t.mode.data, quoteField t.inputText.data,
            quoteField t.outputText.data]) t =
        (fun t : Translation => 4 + 2 * t.inputText.data.count '"' +
          2 * t.outputText.data.count '"') t := by
      intro t ht
      obtain ⟨hqd, hqm⟩ := hq t ht
      have hd : (dateFmt t.createdAt).data.count '"' = 0 :=
        List.count_eq_zero.mpr (fun hmem => hqd '"' hmem rfl)
      have hm : t.mode.data.count '"' = 0 :=
        List.count_eq_zero.mpr (fun hmem => hqm '"' hmem rfl)
      simp only [Function.comp]
      rw [count_joinLists [','] '"' (by decide)]
      simp only [List.map_cons, List.map_nil, List.sum_cons, List.sum_nil]
      rw [hd, hm, count_quoteField, count_quoteField]
      omega
    rw [List.map_congr_left hrow]
    omega

/-- Witness for C8's amended claim: one record with an embedded quote. -/
theorem csvContent_lines_quotes_w :
    (splitOnChar (fun c => c == '\n')
        (csvContent (fun _ => "1970-01-01T00:00:00.000Z")
          [⟨0, "u", "say \"wepa\"", "di \"wepa\"", "en-boricua", 0⟩])).length = 2 ∧
    (csvContent (fun _ => "1970-01-01T00:00:00.000Z")
        [⟨0, "u", "say \"wepa\"", "di \"wepa\"", "en-boricua", 0⟩]).count '"' = 12 := by
  have h := csvContent_lines_quotes (fun _ => "1970-01-01T00:00:00.000Z")
    [⟨0, "u", "say \"wepa\"", "di \"wepa\"", "en-boricua", 0⟩]
    (by decide) (by decide)
  exact ⟨h.1, by rw [h.2]; decide⟩

/-! C9: failed history loads preserve prior state. -/

/-- C9: when the awaited `getTranslations` call fails, `loadHistory`
leaves the history items, cursor and hasMore flag unchanged; the only
changes are the appended error toast and the cleared loading flag. -/
theorem loadHistory_error_preserves (s : UIState) (uid : String) (reset : Bool)
    (msg : String) (huid : uid ≠ "") :
    (loadHistory s uid reset (.error msg)).historyItems = s.historyItems ∧
    (loadHistory s uid reset (.error msg)).historyCursor = s.historyCursor ∧
    (loadHistory s uid reset (.error msg)).historyHasMore = s.historyHasMore ∧
    (loadHistory s uid reset (.error msg)).toasts =
      s.toasts ++ [⟨"Failed to load history: " ++ msg, "error"⟩] ∧
    (loadHistory s uid reset (.error msg)).historyLoading = false := by
  simp [loadHistory, huid, addToast]

/-- Witness for C9 at a concrete state. -/
theorem loadHistory_error_preserves_w :
    (loadHistory ⟨[], none, false, true, []⟩ "u" true (.error "boom")).historyItems =
        ([] : List Translation) ∧
    (loadHistory ⟨[], none, false, true, []⟩ "u" true (.error "boom")).historyCursor =
        none ∧
    (loadHistory ⟨[], none, false, true, []⟩ "u" true (.error "boom")).historyHasMore =
        false ∧
    (loadHistory ⟨[], none, false, true, []⟩ "u" true (.error "boom")).toasts =
        [] ++ [⟨"Failed to load history: " ++ "boom", "error"⟩] ∧
    (loadHistory ⟨[], none, false, true, []⟩ "u" true (.error "boom")).historyLoading =
        false :=
  loadHistory_error_preserves ⟨[], none, false, true, []⟩ "u" true "boom" (by decide)

end Cheve
